import Mathlib

/-!
Verification of `num_to_blob_id` from `examples/python/utils.py` of the
walrus-docs repository.

The Python function converts a numeric (u256) blob identifier to a base64
encoded Blob ID string:

    def num_to_blob_id(blob_id_num):
        extracted_bytes = []
        for i in range(32):
            extracted_bytes += [blob_id_num & 0xFF]
            blob_id_num = blob_id_num >> 8
        assert blob_id_num == 0
        blob_id_bytes = bytes(extracted_bytes)
        encoded = base64.urlsafe_b64encode(blob_id_bytes)
        return encoded.decode("ascii").strip("=")

Python's `&` / `>>` on arbitrary-precision integers coincide with Euclidean
mod / floor division by powers of two, which are Lean's `%` and `/` on `Int`.
A failing `assert` is modelled as `none`.  Python's `str.strip("=")` removes
the character `=` from both ends of the string.
-/

namespace Walrus

/-- The URL-safe base64 alphabet used by Python's `base64.urlsafe_b64encode`:
the standard alphabet with `+` replaced by `-` and `/` replaced by `_`. -/
def b64alphabet : List Char :=
  ['A', 'B', 'C', 'D', 'E', 'F', 'G', 'H', 'I', 'J', 'K', 'L', 'M',
   'N', 'O', 'P', 'Q', 'R', 'S', 'T', 'U', 'V', 'W', 'X', 'Y', 'Z',
   'a', 'b', 'c', 'd', 'e', 'f', 'g', 'h', 'i', 'j', 'k', 'l', 'm',
   'n', 'o', 'p', 'q', 'r', 's', 't', 'u', 'v', 'w', 'x', 'y', 'z',
   '0', '1', '2', '3', '4', '5', '6', '7', '8', '9', '-', '_']

/-- The character the URL-safe base64 alphabet assigns to a sextet value. -/
def b64char (n : Nat) : Char := b64alphabet.getD n '?'

/-- RFC 4648 base64 encoding of a byte list (bytes as `Nat` values `< 256`),
three bytes at a time, with `=` padding for a final group of one or two
bytes.  This is `base64.b64encode` with the URL-safe alphabet. -/
def b64encode : List Nat → List Char
  | [] => []
  | [b0] =>
      [b64char (b0 / 4), b64char (b0 % 4 * 16), '=', '=']
  | [b0, b1] =>
      [b64char (b0 / 4), b64char (b0 % 4 * 16 + b1 / 16),
       b64char (b1 % 16 * 4), '=']
  | b0 :: b1 :: b2 :: rest =>
      b64char (b0 / 4) :: b64char (b0 % 4 * 16 + b1 / 16) ::
      b64char (b1 % 16 * 4 + b2 / 64) :: b64char (b2 % 64) :: b64encode rest

/-- Python's `str.strip(c)`: remove every copy of `c` from both ends. -/
def stripChar (c : Char) (s : List Char) : List Char :=
  (((s.dropWhile (fun d => d == c)).reverse.dropWhile (fun d => d == c))).reverse

/-- One iteration of the Python `for i in range(32)` loop: append the low
byte of the running value to the accumulator and shift the value right by
eight bits. -/
def extractStep (st : List Int × Int) (_i : Nat) : List Int × Int :=
  (st.1 ++ [st.2 % 256], st.2 / 256)

/-- Shallow embedding of `num_to_blob_id`.  The loop state is the pair
(`extracted_bytes`, `blob_id_num`); the `assert blob_id_num == 0` is
modelled by returning `none` when the residual is nonzero. -/
def num_to_blob_id (blob_id_num : Int) : Option String :=
  let st := (List.range 32).foldl extractStep ([], blob_id_num)
  if st.2 = 0 then
    some (String.mk (stripChar '=' (b64encode (st.1.map Int.toNat))))
  else
    none

/-- The first `n` little-endian base-256 digits of an integer, as produced
by `n` iterations of the extraction loop. -/
def leBytes : Int → Nat → List Int
  | _, 0 => []
  | v, n + 1 => v % 256 :: leBytes (v / 256) n

/-- The loop's residual value after `n` right-shifts by eight bits. -/
def shift256 : Int → Nat → Int
  | v, 0 => v
  | v, n + 1 => shift256 (v / 256) n

/-- The first `n` little-endian base-256 digits of a natural number. -/
def natLeBytes : Nat → Nat → List Nat
  | _, 0 => []
  | m, n + 1 => m % 256 :: natLeBytes (m / 256) n

/-- A pure recursive restatement of `num_to_blob_id`: the result depends on
the argument value alone (no loop state). -/
def num_to_blob_id_rec (v : Int) : Option String :=
  if shift256 v 32 = 0 then
    some (String.mk (stripChar '=' (b64encode ((leBytes v 32).map Int.toNat))))
  else
    none

/-- Index of a character in the URL-safe base64 alphabet. -/
def b64index (c : Char) : Nat := b64alphabet.indexOf c

/-- Modelled from the spec: base64 decoding of a padded character string,
four characters at a time; a group ending in `==` yields one byte, a group
ending in `=` yields two bytes, and a full group yields three bytes. -/
def b64decodeChars : List Char → List Nat
  | c0 :: c1 :: c2 :: c3 :: rest =>
      if c2 = '=' then
        [b64index c0 * 4 + b64index c1 / 16]
      else if c3 = '=' then
        [b64index c0 * 4 + b64index c1 / 16,
         b64index c1 % 16 * 16 + b64index c2 / 4]
      else
        (b64index c0 * 4 + b64index c1 / 16) ::
        (b64index c1 % 16 * 16 + b64index c2 / 4) ::
        (b64index c2 % 4 * 64 + b64index c3) :: b64decodeChars rest
  | _ => []

/-- Modelled from the spec: restore `=` padding to make the string length a
multiple of four. -/
def padTo4 (s : List Char) : List Char :=
  s ++ List.replicate ((4 - s.length % 4) % 4) '='

/-- Modelled from the spec: reconstitute an integer from its bytes treating
byte 0 as the least-significant byte. -/
def fromLEBytes : List Nat → Nat
  | [] => 0
  | b :: rest => b + 256 * fromLEBytes rest

/-- Modelled from the spec: the inverse `decode` of the blob-identifier text
form — restore `=` padding to a multiple of four, base64-decode to bytes,
and reconstitute the integer with byte 0 as the least-significant byte. -/
def decode (s : String) : Nat :=
  fromLEBytes (b64decodeChars (padTo4 s.data))

/-- Python's `str.rstrip(c)` on a character list: remove every copy of `c`
from the right end only (the spec speaks of stripping trailing padding). -/
def rstripChar (c : Char) (s : List Char) : List Char :=
  (s.reverse.dropWhile (fun d => d == c)).reverse

/-- Modelled from the spec: the 32-byte little-endian representation of a
value — byte `i` holds bits `8*i .. 8*i+7`. -/
def specLEBytes32 (v : Nat) : List Nat :=
  (List.range 32).map (fun i => v / 256 ^ i % 256)

/-- Modelled from the spec: encode the 32-byte little-endian representation
with the URL-safe base64 alphabet and strip all trailing `=` padding. -/
def specEncode (v : Nat) : String :=
  String.mk (rstripChar '=' (b64encode (specLEBytes32 v)))

/-- Membership in the character class of the regular expression
`^[A-Za-z0-9_-]{43}$`. -/
def isB64UrlChar (c : Char) : Bool :=
  ('A' ≤ c && c ≤ 'Z') || ('a' ≤ c && c ≤ 'z') ||
  ('0' ≤ c && c ≤ '9') || c == '-' || c == '_'

/-! ### The loop state -/

theorem shift256_succ (v : Int) (n : Nat) :
    shift256 v (n + 1) = shift256 v n / 256 := by
  induction n generalizing v with
  | zero => rfl
  | succ n ih =>
      show shift256 (v / 256) (n + 1) = shift256 v (n + 1) / 256
      rw [ih]
      rfl

theorem leBytes_succ (v : Int) (n : Nat) :
    leBytes v (n + 1) = leBytes v n ++ [shift256 v n % 256] := by
  induction n generalizing v with
  | zero => rfl
  | succ n ih =>
      show v % 256 :: leBytes (v / 256) (n + 1) = _
      rw [ih]
      rfl

theorem foldl_extractStep (n : Nat) (v : Int) (acc : List Int) :
    (List.range n).foldl extractStep (acc, v) =
      (acc ++ leBytes v n, shift256 v n) := by
  induction n with
  | zero => simp [leBytes, shift256]
  | succ n ih =>
      rw [List.range_succ, List.foldl_append, ih]
      show (acc ++ leBytes v n ++ [shift256 v n % 256], shift256 v n / 256) = _
      rw [leBytes_succ, shift256_succ, List.append_assoc]

theorem num_to_blob_id_eq_rec (v : Int) :
    num_to_blob_id v = num_to_blob_id_rec v := by
  unfold num_to_blob_id num_to_blob_id_rec
  rw [foldl_extractStep]
  simp

/-! ### Correspondence with natural-number arithmetic -/

theorem shift256_coe (n m : Nat) :
    shift256 (m : Int) n = ((m / 256 ^ n : Nat) : Int) := by
  induction n generalizing m with
  | zero => simp [shift256]
  | succ n ih =>
      show shift256 ((m : Int) / 256) n = _
      have h : (m : Int) / 256 = ((m / 256 : Nat) : Int) := by omega
      rw [h, ih]
      rw [Nat.div_div_eq_div_mul, ← pow_succ']

theorem leBytes_coe (n m : Nat) :
    (leBytes (m : Int) n).map Int.toNat = natLeBytes m n := by
  induction n generalizing m with
  | zero => rfl
  | succ n ih =>
      show ((m : Int) % 256).toNat :: (leBytes ((m : Int) / 256) n).map Int.toNat = _
      have h : (m : Int) / 256 = ((m / 256 : Nat) : Int) := by omega
      have h2 : ((m : Int) % 256).toNat = m % 256 := by omega
      rw [h, ih, h2]
      rfl

theorem shift256_neg (n : Nat) (v : Int) (hv : v < 0) : shift256 v n < 0 := by
  induction n generalizing v with
  | zero => exact hv
  | succ n ih =>
      show shift256 (v / 256) n < 0
      exact ih (v / 256) (by omega)

theorem natLeBytes_length (n m : Nat) : (natLeBytes m n).length = n := by
  induction n generalizing m with
  | zero => rfl
  | succ n ih => simp [natLeBytes, ih]

theorem natLeBytes_lt (n m : Nat) : ∀ b ∈ natLeBytes m n, b < 256 := by
  induction n generalizing m with
  | zero => intro b hb; cases hb
  | succ n ih =>
      intro b hb
      rcases List.mem_cons.mp hb with h | h
      · omega
      · exact ih (m / 256) b h

theorem fromLEBytes_natLeBytes (n m : Nat) :
    fromLEBytes (natLeBytes m n) = m % 256 ^ n := by
  induction n generalizing m with
  | zero => simp [natLeBytes, fromLEBytes, Nat.mod_one]
  | succ n ih =>
      show m % 256 + 256 * fromLEBytes (natLeBytes (m / 256) n) = _
      rw [ih, pow_succ', Nat.mod_mul]

theorem natLeBytes_eq_spec (n m : Nat) :
    natLeBytes m n = (List.range n).map (fun i => m / 256 ^ i % 256) := by
  induction n generalizing m with
  | zero => rfl
  | succ n ih =>
      rw [List.range_succ_eq_map]
      show m % 256 :: natLeBytes (m / 256) n = _
      rw [ih]
      simp only [List.map_cons, List.map_map, pow_zero, Nat.div_one,
        Function.comp, Nat.succ_eq_add_one]
      refine List.cons_eq_cons.mpr ⟨rfl, ?_⟩
      apply List.map_congr_left
      intro i _
      rw [Nat.div_div_eq_div_mul, ← pow_succ']
      rfl

/-! ### The base64 alphabet table -/

theorem b64index_b64char : ∀ n, n < 64 → b64index (b64char n) = n := by decide

theorem b64char_ne_pad : ∀ n, n < 64 → ¬ b64char n = '=' := by decide

theorem b64char_urlsafe : ∀ n, n < 64 → isB64UrlChar (b64char n) = true := by decide

/-! ### Base64 decoding inverts encoding on byte lists -/

theorem b64decode_b64encode :
    ∀ bs : List Nat, (∀ b ∈ bs, b < 256) → b64decodeChars (b64encode bs) = bs
  | [], _ => rfl
  | [b0], h => by
      have hb0 : b0 < 256 := h b0 (List.mem_singleton_self b0)
      show b64decodeChars
        [b64char (b0 / 4), b64char (b0 % 4 * 16), '=', '='] = [b0]
      rw [b64decodeChars, if_pos rfl]
      rw [b64index_b64char (b0 / 4) (by omega),
        b64index_b64char (b0 % 4 * 16) (by omega)]
      refine List.cons_eq_cons.mpr ⟨by omega, rfl⟩
  | [b0, b1], h => by
      have hb0 : b0 < 256 := h b0 (by simp)
      have hb1 : b1 < 256 := h b1 (by simp)
      show b64decodeChars
        [b64char (b0 / 4), b64char (b0 % 4 * 16 + b1 / 16),
         b64char (b1 % 16 * 4), '='] = [b0, b1]
      rw [b64decodeChars, if_neg (b64char_ne_pad (b1 % 16 * 4) (by omega)),
        if_pos rfl]
      rw [b64index_b64char (b0 / 4) (by omega),
        b64index_b64char (b0 % 4 * 16 + b1 / 16) (by omega),
        b64index_b64char (b1 % 16 * 4) (by omega)]
      refine List.cons_eq_cons.mpr ⟨by omega, ?_⟩
      refine List.cons_eq_cons.mpr ⟨by omega, rfl⟩
  | b0 :: b1 :: b2 :: rest, h => by
      have hb0 : b0 < 256 := h b0 (by simp)
      have hb1 : b1 < 256 := h b1 (by simp)
      have hb2 : b2 < 256 := h b2 (by simp)
      have ih := b64decode_b64encode rest
        (fun b hb => h b (by simp [List.mem_cons] at hb ⊢; tauto))
      show b64decodeChars
        (b64char (b0 / 4) :: b64char (b0 % 4 * 16 + b1 / 16) ::
         b64char (b1 % 16 * 4 + b2 / 64) :: b64char (b2 % 64) ::
         b64encode rest) = b0 :: b1 :: b2 :: rest
      rw [b64decodeChars, if_neg (b64char_ne_pad (b1 % 16 * 4 + b2 / 64) (by omega)),
        if_neg (b64char_ne_pad (b2 % 64) (by omega))]
      rw [b64index_b64char (b0 / 4) (by omega),
        b64index_b64char (b0 % 4 * 16 + b1 / 16) (by omega),
        b64index_b64char (b1 % 16 * 4 + b2 / 64) (by omega),
        b64index_b64char (b2 % 64) (by omega)]
      rw [ih]
      refine List.cons_eq_cons.mpr ⟨by omega, ?_⟩
      refine List.cons_eq_cons.mpr ⟨by omega, ?_⟩
      refine List.cons_eq_cons.mpr ⟨by omega, rfl⟩
termination_by bs => bs.length

/-! ### Shape of the encoding of a byte list of length ≡ 2 (mod 3) -/

theorem b64encode_struct :
    ∀ bs : List Nat, (∀ b ∈ bs, b < 256) → bs.length % 3 = 2 →
      ∃ front : List Char,
        b64encode bs = front ++ ['='] ∧
        (∀ c ∈ front, ∃ n, n < 64 ∧ c = b64char n) ∧
        front.length = 4 * (bs.length / 3) + 3
  | [], _, hlen => by simp at hlen
  | [b0], _, hlen => by simp at hlen
  | [b0, b1], h, _ => by
      have hb0 : b0 < 256 := h b0 (by simp)
      have hb1 : b1 < 256 := h b1 (by simp)
      refine ⟨[b64char (b0 / 4), b64char (b0 % 4 * 16 + b1 / 16),
        b64char (b1 % 16 * 4)], rfl, ?_, by simp⟩
      intro c hc
      simp only [List.mem_cons, List.not_mem_nil, or_false] at hc
      rcases hc with rfl | rfl | rfl
      · exact ⟨b0 / 4, by omega, rfl⟩
      · exact ⟨b0 % 4 * 16 + b1 / 16, by omega, rfl⟩
      · exact ⟨b1 % 16 * 4, by omega, rfl⟩
  | b0 :: b1 :: b2 :: rest, h, hlen => by
      have hb0 : b0 < 256 := h b0 (by simp)
      have hb1 : b1 < 256 := h b1 (by simp)
      have hb2 : b2 < 256 := h b2 (by simp)
      have hlen' : rest.length % 3 = 2 := by
        simp only [List.length_cons] at hlen
        omega
      obtain ⟨front, henc, hmem, hlenf⟩ := b64encode_struct rest
        (fun b hb => h b (by simp [List.mem_cons] at hb ⊢; tauto)) hlen'
      refine ⟨b64char (b0 / 4) :: b64char (b0 % 4 * 16 + b1 / 16) ::
        b64char (b1 % 16 * 4 + b2 / 64) :: b64char (b2 % 64) :: front, ?_, ?_, ?_⟩
      · show b64char (b0 / 4) :: b64char (b0 % 4 * 16 + b1 / 16) ::
          b64char (b1 % 16 * 4 + b2 / 64) :: b64char (b2 % 64) ::
          b64encode rest = _
        rw [henc]
        rfl
      · intro c hc
        simp only [List.mem_cons] at hc
        rcases hc with rfl | rfl | rfl | rfl | hc
        · exact ⟨b0 / 4, by omega, rfl⟩
        · exact ⟨b0 % 4 * 16 + b1 / 16, by omega, rfl⟩
        · exact ⟨b1 % 16 * 4 + b2 / 64, by omega, rfl⟩
        · exact ⟨b2 % 64, by omega, rfl⟩
        · exact hmem c hc
      · simp only [List.length_cons]
        omega
termination_by bs => bs.length

/-! ### Stripping the padding character -/

theorem dropWhile_pad_of_not_mem {l : List Char} (h : '=' ∉ l) :
    l.dropWhile (fun d => d == '=') = l := by
  cases l with
  | nil => rfl
  | cons c t =>
      have hc : ¬ c = '=' := fun hc => h (hc ▸ List.mem_cons_self c t)
      rw [List.dropWhile_cons, if_neg (by simpa using hc)]

theorem stripChar_pad (front : List Char) (hne : front ≠ [])
    (hmem : '=' ∉ front) : stripChar '=' (front ++ ['=']) = front := by
  obtain ⟨c, t, rfl⟩ := List.exists_cons_of_ne_nil hne
  have hc : ¬ c = '=' := fun hcc => hmem (hcc ▸ List.mem_cons_self c t)
  unfold stripChar
  rw [List.cons_append, List.dropWhile_cons, if_neg (by simpa using hc),
    ← List.cons_append, List.reverse_append]
  show (('=' :: (c :: t).reverse).dropWhile (fun d => d == '=')).reverse = c :: t
  rw [List.dropWhile_cons, if_pos (by simp),
    dropWhile_pad_of_not_mem (by rw [List.mem_reverse]; exact hmem)]
  exact List.reverse_reverse _

theorem rstripChar_pad (front : List Char) (hmem : '=' ∉ front) :
    rstripChar '=' (front ++ ['=']) = front := by
  unfold rstripChar
  rw [List.reverse_append]
  show (('=' :: front.reverse).dropWhile (fun d => d == '=')).reverse = front
  rw [List.dropWhile_cons, if_pos (by simp),
    dropWhile_pad_of_not_mem (by rw [List.mem_reverse]; exact hmem)]
  exact List.reverse_reverse _

/-! ### Master characterization on the valid domain -/

theorem not_pad_of_sextets {front : List Char}
    (hmem : ∀ c ∈ front, ∃ n, n < 64 ∧ c = b64char n) : '=' ∉ front := by
  intro hin
  obtain ⟨n, hn, hchar⟩ := hmem '=' hin
  exact b64char_ne_pad n hn hchar.symm

theorem shift256_32_eq_zero (v : Int) (h0 : 0 ≤ v) (h1 : v < 2 ^ 256) :
    shift256 v 32 = 0 := by
  have hv : ((v.toNat : Nat) : Int) = v := Int.toNat_of_nonneg h0
  have hpow : (256 : Nat) ^ 32 = 2 ^ 256 := by norm_num
  have hdiv : v.toNat / 256 ^ 32 = 0 := Nat.div_eq_of_lt (by omega)
  rw [← hv, shift256_coe, hdiv]
  rfl

theorem shift256_32_ne_zero (v : Int) (h : v < 0 ∨ 2 ^ 256 ≤ v) :
    ¬ shift256 v 32 = 0 := by
  rcases h with hneg | hbig
  · have := shift256_neg 32 v hneg
    omega
  · have h0 : 0 ≤ v := by omega
    have hv : ((v.toNat : Nat) : Int) = v := Int.toNat_of_nonneg h0
    have hpow : (256 : Nat) ^ 32 = 2 ^ 256 := by norm_num
    have hone : 1 ≤ v.toNat / 256 ^ 32 :=
      (Nat.one_le_div_iff (by positivity)).mpr (by omega)
    rw [← hv, shift256_coe]
    omega

theorem num_to_blob_id_spec (v : Int) (h0 : 0 ≤ v) (h1 : v < 2 ^ 256) :
    ∃ front : List Char,
      b64encode (natLeBytes v.toNat 32) = front ++ ['='] ∧
      num_to_blob_id v = some (String.mk front) ∧
      (∀ c ∈ front, ∃ n, n < 64 ∧ c = b64char n) ∧
      front.length = 43 := by
  have hv : ((v.toNat : Nat) : Int) = v := Int.toNat_of_nonneg h0
  have hshift : shift256 v 32 = 0 := shift256_32_eq_zero v h0 h1
  obtain ⟨front, henc, hmem, hlenf⟩ :=
    b64encode_struct (natLeBytes v.toNat 32)
      (natLeBytes_lt 32 v.toNat)
      (by rw [natLeBytes_length])
  have hnopad : '=' ∉ front := not_pad_of_sextets hmem
  have hlen43 : front.length = 43 := by
    rw [hlenf, natLeBytes_length]
  refine ⟨front, henc, ?_, hmem, hlen43⟩
  rw [num_to_blob_id_eq_rec]
  unfold num_to_blob_id_rec
  rw [if_pos hshift, ← hv, leBytes_coe, henc,
    stripChar_pad front (by intro hf; rw [hf] at hlen43; simp at hlen43) hnopad]

/-- Decoding any string the function returns recovers the input value. -/
theorem decode_num_to_blob_id (v : Int) (h0 : 0 ≤ v) (h1 : v < 2 ^ 256)
    (s : String) (hs : num_to_blob_id v = some s) : (decode s : Int) = v := by
  obtain ⟨front, henc, hsome, hmem, hlen⟩ := num_to_blob_id_spec v h0 h1
  rw [hsome] at hs
  have hsmk : s = String.mk front := (Option.some.inj hs).symm
  subst hsmk
  show (fromLEBytes (b64decodeChars (padTo4 front)) : Int) = v
  have hpad : padTo4 front = front ++ ['='] := by
    unfold padTo4
    rw [hlen]
    rfl
  have hmod : v.toNat % 256 ^ 32 = v.toNat := by
    have hpow : (256 : Nat) ^ 32 = 2 ^ 256 := by norm_num
    have hv : ((v.toNat : Nat) : Int) = v := Int.toNat_of_nonneg h0
    exact Nat.mod_eq_of_lt (by omega)
  rw [hpad, ← henc, b64decode_b64encode _ (natLeBytes_lt 32 v.toNat),
    fromLEBytes_natLeBytes, hmod, Int.toNat_of_nonneg h0]

/-! ### The claims -/

/-- C1: Round-trip — for every integer `v` with `0 ≤ v < 2^256`,
`decode (num_to_blob_id v) = v`, where `decode` restores `=` padding to a
multiple of four, URL-safe base64-decodes, and reconstitutes the integer
treating byte 0 as the least-significant byte. -/
theorem roundtrip_C1 (v : Int) (h0 : 0 ≤ v) (h1 : v < 2 ^ 256) :
    ∃ s : String, num_to_blob_id v = some s ∧ (decode s : Int) = v := by
  obtain ⟨front, henc, hsome, hmem, hlen⟩ := num_to_blob_id_spec v h0 h1
  exact ⟨String.mk front, hsome,
    decode_num_to_blob_id v h0 h1 (String.mk front) hsome⟩

set_option maxRecDepth 4000 in
theorem roundtrip_C1_witness :
    (0 : Int) ≤ 5 ∧ (5 : Int) < 2 ^ 256 ∧
      ∃ s : String, num_to_blob_id 5 = some s ∧ (decode s : Int) = 5 :=
  ⟨by decide, by decide, roundtrip_C1 5 (by decide) (by decide)⟩

/-- C2: Algorithm correctness — on the valid domain the function returns
exactly the URL-safe base64 encoding of the 32-byte little-endian
representation of the value with trailing `=` padding removed. -/
theorem algorithm_C2 (v : Int) (h0 : 0 ≤ v) (h1 : v < 2 ^ 256) :
    num_to_blob_id v = some (specEncode v.toNat) := by
  obtain ⟨front, henc, hsome, hmem, hlen⟩ := num_to_blob_id_spec v h0 h1
  rw [hsome]
  unfold specEncode specLEBytes32
  rw [← natLeBytes_eq_spec, henc,
    rstripChar_pad front (not_pad_of_sextets hmem)]

set_option maxRecDepth 4000 in
theorem algorithm_C2_witness :
    (0 : Int) ≤ 5 ∧ (5 : Int) < 2 ^ 256 ∧
      num_to_blob_id 5 = some (specEncode (5 : Int).toNat) :=
  ⟨by decide, by decide, algorithm_C2 5 (by decide) (by decide)⟩

/-- C3: Fixed-width output — on the valid domain the returned string has
exactly 43 characters, also for small values with leading zero bytes. -/
theorem fixed_width_C3 (v : Int) (h0 : 0 ≤ v) (h1 : v < 2 ^ 256) :
    ∃ s : String, num_to_blob_id v = some s ∧ s.length = 43 := by
  obtain ⟨front, henc, hsome, hmem, hlen⟩ := num_to_blob_id_spec v h0 h1
  refine ⟨String.mk front, hsome, ?_⟩
  show front.length = 43
  exact hlen

set_option maxRecDepth 4000 in
theorem fixed_width_C3_witness :
    (0 : Int) ≤ 5 ∧ (5 : Int) < 2 ^ 256 ∧
      ∃ s : String, num_to_blob_id 5 = some s ∧ s.length = 43 :=
  ⟨by decide, by decide, fixed_width_C3 5 (by decide) (by decide)⟩

/-- C4: Raises-iff — the function fails (the `assert` fires, modelled as
`none`) exactly when the value does not fit in 32 bytes, i.e. when `v < 0`
or `v ≥ 2^256`; and it fails exactly when the loop residual after the 32
byte-extractions is nonzero. -/
theorem raises_iff_C4 (v : Int) :
    (num_to_blob_id v = none ↔ (v < 0 ∨ 2 ^ 256 ≤ v)) ∧
    (num_to_blob_id v = none ↔
      ¬ ((List.range 32).foldl extractStep ([], v)).2 = 0) := by
  have hresid : ((List.range 32).foldl extractStep ([], v)).2 = shift256 v 32 := by
    rw [foldl_extractStep]
  have hnone : num_to_blob_id v = none ↔ ¬ shift256 v 32 = 0 := by
    rw [num_to_blob_id_eq_rec]
    unfold num_to_blob_id_rec
    by_cases hs : shift256 v 32 = 0
    · rw [if_pos hs]
      simp [hs]
    · rw [if_neg hs]
      simp [hs]
  constructor
  · rw [hnone]
    constructor
    · intro hne
      by_contra hcon
      push_neg at hcon
      exact hne (shift256_32_eq_zero v (by omega) hcon.2)
    · exact shift256_32_ne_zero v
  · rw [hnone, hresid]

/-- C5: Output alphabet — on the valid domain the result matches
`^[A-Za-z0-9_-]{43}$`: it has 43 characters, each in the URL-safe base64
alphabet class, and none of them is the `=` padding character. -/
theorem alphabet_C5 (v : Int) (h0 : 0 ≤ v) (h1 : v < 2 ^ 256) :
    ∃ s : String, num_to_blob_id v = some s ∧ s.length = 43 ∧
      ∀ c ∈ s.data, isB64UrlChar c = true ∧ ¬ c = '=' := by
  obtain ⟨front, henc, hsome, hmem, hlen⟩ := num_to_blob_id_spec v h0 h1
  refine ⟨String.mk front, hsome, hlen, ?_⟩
  intro c hc
  obtain ⟨n, hn, rfl⟩ := hmem c hc
  exact ⟨b64char_urlsafe n hn, b64char_ne_pad n hn⟩

set_option maxRecDepth 4000 in
theorem alphabet_C5_witness :
    (0 : Int) ≤ 5 ∧ (5 : Int) < 2 ^ 256 ∧
      ∃ s : String, num_to_blob_id 5 = some s ∧ s.length = 43 ∧
        ∀ c ∈ s.data, isB64UrlChar c = true ∧ ¬ c = '=' :=
  ⟨by decide, by decide, alphabet_C5 5 (by decide) (by decide)⟩

set_option maxRecDepth 4000 in
/-- C6: Pinned test vector from the `__main__` block of `utils.py`. -/
theorem test_vector_C6 :
    num_to_blob_id
        46269954626831698189342469164469112511517843773769981308926739591706762839432 =
      some "iIWkkUTzPZx-d1E_A7LqUynnYFD-ztk39_tP8MLdS2Y" := by
  decide

set_option maxRecDepth 4000 in
/-- C7 counterexample: the claim asserts `num_to_blob_id 0 ≠ "A"*43`, but
encoding zero gives exactly forty-three `A` characters. -/
theorem encode_zero_C7_counterexample :
    num_to_blob_id 0 = some (String.mk (List.replicate 43 'A')) := by
  decide

set_option maxRecDepth 4000 in
/-- C7 (amended): encoding zero yields the URL-safe base64 encoding of 32
zero bytes with the trailing padding stripped, and that value is exactly
the string of forty-three `A` characters. -/
theorem encode_zero_C7 :
    num_to_blob_id 0 = some (specEncode 0) ∧
      specEncode 0 = String.mk (List.replicate 43 'A') := by
  constructor
  · decide
  · decide

/-- C8: Injectivity — distinct values of the valid domain encode to
distinct blob-identifier strings. -/
theorem injective_C8 (v1 v2 : Int) (h01 : 0 ≤ v1) (h11 : v1 < 2 ^ 256)
    (h02 : 0 ≤ v2) (h12 : v2 < 2 ^ 256) (hne : v1 ≠ v2) :
    num_to_blob_id v1 ≠ num_to_blob_id v2 := by
  intro heq
  obtain ⟨f1, _, hs1, _, _⟩ := num_to_blob_id_spec v1 h01 h11
  obtain ⟨f2, _, hs2, _, _⟩ := num_to_blob_id_spec v2 h02 h12
  have e1 := decode_num_to_blob_id v1 h01 h11 (String.mk f1) hs1
  have e2 := decode_num_to_blob_id v2 h02 h12 (String.mk f2) hs2
  rw [hs1, hs2] at heq
  have hf : String.mk f1 = String.mk f2 := Option.some.inj heq
  exact hne (by rw [← e1, ← e2, hf])

set_option maxRecDepth 4000 in
theorem injective_C8_witness :
    (0 : Int) ≤ 0 ∧ (0 : Int) < 2 ^ 256 ∧ (0 : Int) ≤ 1 ∧ (1 : Int) < 2 ^ 256 ∧
      (0 : Int) ≠ 1 ∧ num_to_blob_id 0 ≠ num_to_blob_id 1 :=
  ⟨by decide, by decide, by decide, by decide, by decide,
    injective_C8 0 1 (by decide) (by decide) (by decide) (by decide) (by decide)⟩

/-- C9: Purity and determinism — the result of the stateful loop embedding
is a function of the argument value alone: any two invocations with the
same value agree, and the loop-state computation coincides with a pure
recursion with no state at all. -/
theorem pure_C9 (v : Int) :
    num_to_blob_id v = num_to_blob_id v ∧
      num_to_blob_id v = num_to_blob_id_rec v :=
  ⟨rfl, num_to_blob_id_eq_rec v⟩

/-- C10: Overflow check unreachable on valid input — after the 32
byte-extractions the loop residual is zero, so the assertion never fires
and the function returns a string on the whole valid domain. -/
theorem total_C10 (v : Int) (h0 : 0 ≤ v) (h1 : v < 2 ^ 256) :
    ((List.range 32).foldl extractStep ([], v)).2 = 0 ∧
      ∃ s : String, num_to_blob_id v = some s := by
  constructor
  · rw [foldl_extractStep]
    exact shift256_32_eq_zero v h0 h1
  · obtain ⟨front, _, hsome, _, _⟩ := num_to_blob_id_spec v h0 h1
    exact ⟨String.mk front, hsome⟩

set_option maxRecDepth 4000 in
theorem total_C10_witness :
    (0 : Int) ≤ 7 ∧ (7 : Int) < 2 ^ 256 ∧
      (((List.range 32).foldl extractStep ([], 7)).2 = 0 ∧
        ∃ s : String, num_to_blob_id 7 = some s) :=
  ⟨by decide, by decide, total_C10 7 (by decide) (by decide)⟩

end Walrus
